import Mathlib

/-!
Verification of the synchronization engine of `music_sync.py`.

The development below is a shallow embedding of the engine:

* filesystem paths are modelled as lists of path components (`PathC`);
* the local filesystem tree seen by `os.scandir` is an inductive forest
  (`FSTree`) whose entries are files, directories or entries of any other
  kind (dangling symlinks, special files);
* modification times (python floats that are only ever compared) are
  modelled as rationals;
* fallible code (the `AssertionError` raised by `Sync.scan_local`) is
  modelled with `Except`;
* the mutating side effects of `Sync.sync` (rmdir, unlink, mkdir, convert)
  are reified as a list of `SyncAction` values, and the console report as a
  list of strings, so that the decision logic can be reasoned about.
-/

set_option maxRecDepth 8000

namespace MusicSync

/-- A filesystem path, as its list of components below the filesystem root. -/
abbrev PathC := List String

/-- Rendering of a path the way python prints a `pathlib.Path`. -/
def pathStr (p : PathC) : String := "/" ++ String.intercalate ("/") p

/-- Component-wise test that the first list is an initial segment of the
second.  This is the successful case of pathlib `relative_to`, and is also
reused for character lists. -/
def hasPref {α : Type} [DecidableEq α] : List α → List α → Bool
  | [], _ => true
  | _ :: _, [] => false
  | a :: as, b :: bs => if a = b then hasPref as bs else false

/-- Splits a character list around its last dot: `some (before, after)` where
the input is `before ++ dot :: after` and `after` is dot-free. -/
def splitLastDot : List Char → Option (List Char × List Char)
  | [] => none
  | c :: rest =>
    match splitLastDot rest with
    | some (b, a) => some (c :: b, a)
    | none => if c = '.' then some ([], rest) else none

/-- pathlib `PurePath.suffix` of a file name: the part of the name from the
last dot on, provided that dot is neither the first nor the last character;
otherwise the empty string. -/
def suffixOfName (n : String) : String :=
  match splitLastDot n.toList with
  | none => ""
  | some (b, a) => if b ≠ [] ∧ a ≠ [] then String.mk ('.' :: a) else ("")

/-- pathlib `with_suffix` on a file name: the current suffix (which may be
empty) is removed and the new one appended. -/
def nameWithSuffix (n : String) (suf : String) : String :=
  match splitLastDot n.toList with
  | none => n ++ suf
  | some (b, a) => if b ≠ [] ∧ a ≠ [] then String.mk b ++ suf else n ++ suf

/-- pathlib `with_suffix` on a path: rewrite the suffix of the final
component.  (The source only applies it to non-empty paths.) -/
def withSuffix : PathC → String → PathC
  | [], _ => []
  | [n], suf => [nameWithSuffix n suf]
  | a :: b :: rest, suf => a :: withSuffix (b :: rest) suf

/-- The image-file suffixes deferred by `Sync.scan_local`, exactly the six
members of the python literal set. -/
def imageSuffixes : List String := [".jpg", ".jpeg", ".png", ".JPG", ".JPEG", ".PNG"]

/-- The text of the `AssertionError` raised by `Sync.scan_local` for a
directory entry that is neither a file nor a directory. -/
def assertionMsg : String := "entry is neither file nor directory"

/-- The roots configured in `Sync.__init__`: `LOCAL_ROOT = Path.home()/'Music'`
and `REMOTE_ROOT = mount_dir/'sdcard'/'Music'`. -/
structure Config where
  LOCAL_ROOT : PathC
  REMOTE_ROOT : PathC

/-- `LOCAL_PLAYLISTS_ROOT = LOCAL_ROOT / '.playlists'` from `Sync.__init__`. -/
def Config.LOCAL_PLAYLISTS_ROOT (c : Config) : PathC := c.LOCAL_ROOT ++ [".playlists"]

/-- Embeds `Sync.convert_path_local_to_remote`.  If the path is inside the
playlists subtree the result is `REMOTE_ROOT/'Playlists'/rel`, otherwise
`REMOTE_ROOT/rel` where `rel` is the path relative to `LOCAL_ROOT`.  The
python `relative_to(LOCAL_ROOT)` in the second branch raises for a path not
under `LOCAL_ROOT`; that is a precondition violation (spec section 4.1) and
every call in the engine satisfies the precondition, so the embedding is
total with the drop applied unconditionally. -/
def convertPathLocalToRemote (c : Config) (p : PathC) : PathC :=
  if hasPref c.LOCAL_PLAYLISTS_ROOT p = true then
    c.REMOTE_ROOT ++ ["Playlists"] ++ p.drop c.LOCAL_PLAYLISTS_ROOT.length
  else
    c.REMOTE_ROOT ++ p.drop c.LOCAL_ROOT.length

/-- The transform kind of a file unit: `File` (plain copy),
`OpusConvertFile` (flac transcode) or `M3uConvertFile` (playlist rewrite). -/
inductive FileKind where
  | copyK : FileKind
  | opusK : FileKind
  | m3uK : FileKind
deriving DecidableEq

/-- A sync unit produced by `Sync.scan_local`: the `Dir` dataclass or one of
the `File` dataclasses, each carrying its local and mapped remote path. -/
inductive SyncUnit where
  | dirU (localPath remotePath : PathC) : SyncUnit
  | fileU (kind : FileKind) (localPath remotePath : PathC) : SyncUnit
deriving DecidableEq

/-- The local path of a sync unit. -/
def SyncUnit.localPath : SyncUnit → PathC
  | SyncUnit.dirU lp _ => lp
  | SyncUnit.fileU _ lp _ => lp

/-- The remote path of a sync unit. -/
def SyncUnit.remotePath : SyncUnit → PathC
  | SyncUnit.dirU _ rp => rp
  | SyncUnit.fileU _ _ rp => rp

/-- Whether a sync unit is a `Dir` unit. -/
def SyncUnit.isDirB : SyncUnit → Bool
  | SyncUnit.dirU _ _ => true
  | SyncUnit.fileU _ _ _ => false

/-- The listing of a local directory as seen by `os.scandir`: a sequence of
entries, each a regular file, a directory with its own listing, or an entry
of any other kind. -/
inductive FSTree where
  | nilF : FSTree
  | fileF (name : String) (rest : FSTree) : FSTree
  | dirF (name : String) (children : FSTree) (rest : FSTree) : FSTree
  | otherF (name : String) (rest : FSTree) : FSTree
deriving DecidableEq

/-- The names of the entries of a directory listing. -/
def siblingNames : FSTree → List String
  | FSTree.nilF => []
  | FSTree.fileF n r => n :: siblingNames r
  | FSTree.dirF n _ r => n :: siblingNames r
  | FSTree.otherF n r => n :: siblingNames r

/-- Classification of one regular file by `Sync.scan_local`: an `.m3u` file
is always an `M3uConvertFile`; otherwise a file in the filter set becomes an
`OpusConvertFile` (with the remote suffix rewritten to `.ogg`) when it is a
`.flac`, else a plain `File`; otherwise an image file is deferred onto the
`images` list; anything else is dropped.  New units are placed in front of
the accumulated rest-of-directory output, preserving encounter order. -/
def classifyFile (c : Config) (fset : List PathC) (d : PathC) (n : String)
    (main imgs : List SyncUnit) : List SyncUnit × List SyncUnit :=
  let p := d ++ [n]
  if suffixOfName n = ".m3u" then
    (SyncUnit.fileU FileKind.m3uK p (convertPathLocalToRemote c p) :: main, imgs)
  else if p ∈ fset then
    if suffixOfName n = ".flac" then
      (SyncUnit.fileU FileKind.opusK p (withSuffix (convertPathLocalToRemote c p) (".ogg")) :: main,
        imgs)
    else
      (SyncUnit.fileU FileKind.copyK p (convertPathLocalToRemote c p) :: main, imgs)
  else if suffixOfName n ∈ imageSuffixes then
    (main, SyncUnit.fileU FileKind.copyK p (convertPathLocalToRemote c p) :: imgs)
  else
    (main, imgs)

/-- Embeds the `get_inner_files` generator of `Sync.scan_local` run to
completion over the listing of the directory at path `d`: the first list is
everything the generator yields in order, the second the `images` list
collected on the side.  A directory entry named `.mediaartlocal` is skipped;
any other directory entry is scanned recursively and its `scan_local` output
(directory unit first when non-empty, then its units, then its own images)
is spliced into the stream; an entry that is neither file nor directory
raises, which aborts the whole scan. -/
def scanChildren (c : Config) (fset : List PathC) :
    PathC → FSTree → Except String (List SyncUnit × List SyncUnit)
  | _, FSTree.nilF => Except.ok ([], [])
  | d, FSTree.fileF n r =>
    match scanChildren c fset d r with
    | Except.error e => Except.error e
    | Except.ok (main, imgs) => Except.ok (classifyFile c fset d n main imgs)
  | d, FSTree.dirF n ch r =>
    if n = ".mediaartlocal" then scanChildren c fset d r
    else
      match scanChildren c fset (d ++ [n]) ch with
      | Except.error e => Except.error e
      | Except.ok (mc, ic) =>
        match scanChildren c fset d r with
        | Except.error e => Except.error e
        | Except.ok (main, imgs) =>
          Except.ok
            ((if mc = [] then []
              else SyncUnit.dirU (d ++ [n]) (convertPathLocalToRemote c (d ++ [n])) :: mc ++ ic)
              ++ main, imgs)
  | _, FSTree.otherF _ _ => Except.error assertionMsg

/-- Embeds `Sync.scan_local` on the directory at path `d` with listing `t`:
if the inner generator yields nothing the directory produces nothing (and
its collected images are discarded); otherwise the directory unit comes
first, then the generator output, then the deferred images. -/
def scanLocal (c : Config) (fset : List PathC) (d : PathC) (t : FSTree) :
    Except String (List SyncUnit) :=
  match scanChildren c fset d t with
  | Except.error e => Except.error e
  | Except.ok (main, imgs) =>
    if main = [] then Except.ok []
    else Except.ok (SyncUnit.dirU d (convertPathLocalToRemote c d) :: main ++ imgs)

/-- Auxiliary well-formedness of a forest: inside every directory entry the
sibling names are distinct. -/
def wfAux : FSTree → Bool
  | FSTree.nilF => true
  | FSTree.fileF _ r => wfAux r
  | FSTree.otherF _ r => wfAux r
  | FSTree.dirF _ ch r => (decide (siblingNames ch).Nodup && wfAux ch) && wfAux r

/-- Well-formedness of a directory listing: names of siblings are distinct at
every level, which is guaranteed for a listing produced by a real
filesystem. -/
def wfForest (t : FSTree) : Bool := decide (siblingNames t).Nodup && wfAux t

/-- Whether the scan of this listing reaches an entry that is neither a file
nor a directory (entries inside a skipped `.mediaartlocal` directory are
never reached). -/
def reachesOther : FSTree → Bool
  | FSTree.nilF => false
  | FSTree.fileF _ r => reachesOther r
  | FSTree.otherF _ _ => true
  | FSTree.dirF n ch r =>
    (if n = ".mediaartlocal" then false else reachesOther ch) || reachesOther r

/-- The deferred image units of one directory, read off directly from its
listing: the direct child files that are not playlists, fail the filter set,
and have an image suffix, in encounter order. -/
def deferredImages (c : Config) (fset : List PathC) (d : PathC) : FSTree → List SyncUnit
  | FSTree.nilF => []
  | FSTree.fileF n r =>
    if suffixOfName n ≠ ".m3u" ∧ ¬ (d ++ [n]) ∈ fset ∧ suffixOfName n ∈ imageSuffixes then
      SyncUnit.fileU FileKind.copyK (d ++ [n]) (convertPathLocalToRemote c (d ++ [n]))
        :: deferredImages c fset d r
    else deferredImages c fset d r
  | FSTree.dirF _ _ r => deferredImages c fset d r
  | FSTree.otherF _ r => deferredImages c fset d r

/-- The ordering property behind spec pre-order emission: a later unit that
is a directory unit never lies strictly above an earlier unit. -/
def dirBefore (u v : SyncUnit) : Prop :=
  ∀ p rp, v = SyncUnit.dirU p rp → ¬ (hasPref p u.localPath = true ∧ p ≠ u.localPath)

/-- Lexicographic comparison of paths, component by component with the
string order (the order used when python sorts the paths slated for
deletion). -/
def pathLeB : PathC → PathC → Bool
  | [], _ => true
  | _ :: _, [] => false
  | a :: as, b :: bs => if a = b then pathLeB as bs else decide (a < b)

/-- Insertion into a descending list. -/
def insertDesc (x : PathC) : List PathC → List PathC
  | [] => [x]
  | y :: ys => if pathLeB y x = true then x :: y :: ys else y :: insertDesc x ys

/-- Sorting in descending lexicographic order, the `sorted(..., reverse=True)`
of `Sync.sync`. -/
def sortDesc : List PathC → List PathC
  | [] => []
  | x :: xs => insertDesc x (sortDesc xs)

/-- The keys of the `remote_file_mtimes` dict, modelled from the association
list of remote entries. -/
def remoteKeys (remote : List (PathC × ℚ)) : List PathC := (remote.map Prod.fst).dedup

/-- Embeds the `to_delete` computation of `Sync.sync`: the remote paths that
no local unit maps to, in descending lexicographic order. -/
def toDelete (keys localR : List PathC) : List PathC :=
  sortDesc (keys.filter (fun p => decide (¬ p ∈ localR)))

/-- The state of the local filesystem at `sync` time, as consulted by the
engine: `Path.is_file` and `stat().st_mtime`. -/
structure LocalFS where
  isFile : PathC → Bool
  mtimeOf : PathC → ℚ

/-- Lookup in the `remote_file_mtimes` dict: python dict construction lets a
later binding of the same key win. -/
def dictGet : List (PathC × ℚ) → PathC → Option ℚ
  | [], _ => none
  | (k, v) :: rest, p =>
    match dictGet rest p with
    | some w => some w
    | none => if k = p then some v else none

/-- A mutating action of `Sync.sync`, reified. -/
inductive SyncAction where
  | rmdirA (p : PathC) : SyncAction
  | unlinkA (p : PathC) : SyncAction
  | mkdirA (p : PathC) : SyncAction
  | removeExistingA (p : PathC) : SyncAction
  | convertA (u : SyncUnit) : SyncAction
deriving DecidableEq

/-- The update condition of `Sync.sync` for one unit: act when the remote
mtime is absent, or when the unit's local path is a regular file whose local
mtime is strictly greater than the remote one. -/
def updateNeeded (fs : LocalFS) (remote : List (PathC × ℚ)) (u : SyncUnit) : Bool :=
  match dictGet remote u.remotePath with
  | none => true
  | some rm => fs.isFile u.localPath && decide (rm < fs.mtimeOf u.localPath)

/-- The per-unit body of the second loop of `Sync.sync`: the printed report
line and, outside dry-run mode, the mutating actions (mkdir for a directory
unit; for a file unit an unlink of a pre-existing remote file followed by
the conversion). -/
def unitStep (dry : Bool) (fs : LocalFS) (rExists : PathC → Bool)
    (remote : List (PathC × ℚ)) (u : SyncUnit) : List String × List SyncAction :=
  if updateNeeded fs remote u then
    match u with
    | SyncUnit.dirU _ rp =>
      (["Creating directory " ++ pathStr rp], if dry then [] else [SyncAction.mkdirA rp])
    | SyncUnit.fileU k lp rp =>
      (["Syncing " ++ pathStr rp],
        if dry then []
        else (if rExists rp = true then [SyncAction.removeExistingA rp] else [])
          ++ [SyncAction.convertA (SyncUnit.fileU k lp rp)])
  else ([], [])

/-- The per-path body of the deletion loop of `Sync.sync`: the printed report
line and, outside dry-run mode, an rmdir or unlink depending on the remote
entry kind. -/
def deleteStepRun (dry : Bool) (rIsDir : PathC → Bool) (p : PathC) :
    List String × List SyncAction :=
  (["Deleting " ++ pathStr p],
    if dry then [] else if rIsDir p = true then [SyncAction.rmdirA p] else [SyncAction.unlinkA p])

/-- Embeds `Sync.sync`: compute `to_delete` from the remote keys and the
local collection, run the deletion loop, then the per-unit loop.  The first
component is the console report in order, the second the mutating actions in
order. -/
def syncRun (dry : Bool) (fs : LocalFS) (rIsDir rExists : PathC → Bool)
    (localCollection : List SyncUnit) (remote : List (PathC × ℚ)) :
    List String × List SyncAction :=
  let td := toDelete (remoteKeys remote) (localCollection.map SyncUnit.remotePath)
  let parts := td.map (deleteStepRun dry rIsDir)
    ++ localCollection.map (unitStep dry fs rExists remote)
  ((parts.map Prod.fst).flatten, (parts.map Prod.snd).flatten)

/-- Concatenation of the images of the characters of a list. -/
def charMapConcat (f : Char → List Char) : List Char → List Char
  | [] => []
  | c :: rest => f c ++ charMapConcat f rest

/-- Worker for left-to-right global replacement: in state `0` it looks for
the pattern at the current position, emits the replacement on a match and
switches to skipping the rest of the matched pattern; in state `k+1` it
skips a character. -/
def replAux (pat rep : List Char) : Nat → List Char → List Char
  | _, [] => []
  | 0, c :: rest =>
    if hasPref pat (c :: rest) = true then rep ++ replAux pat rep (pat.length - 1) rest
    else c :: replAux pat rep 0 rest
  | Nat.succ k, _ :: rest => replAux pat rep k rest

/-- Left-to-right non-overlapping global replacement of a (non-empty) literal
pattern, the semantics shared by python `str.replace` and by a sed
`s/pat/rep/g` command whose pattern is a literal. -/
def replaceAll (pat rep s : List Char) : List Char := replAux pat rep 0 s

/-- The text inserted by a sed replacement when the match is empty (as it is
for the anchor `^`): a backslash escapes the following character, a bare
ampersand denotes the (empty) match, every other character stands for
itself. -/
def sedReplText : List Char → List Char
  | [] => []
  | c :: rest =>
    if c = '\\' then
      match rest with
      | [] => ['\\']
      | d :: rest2 => d :: sedReplText rest2
    else if c = '&' then sedReplText rest
    else c :: sedReplText rest

/-- Embeds the escaping loop of `M3uConvertFile.convert`: replace each of
backslash, slash and ampersand, in that order, by the backslash-escaped
character. -/
def escapeSedRepl (s : List Char) : List Char :=
  replaceAll ['&'] ['\\', '&'] (replaceAll ['/'] ['\\', '/'] (replaceAll ['\\'] ['\\', '\\'] s))

/-- The escaped form of one character as the spec states it: backslash,
slash and ampersand acquire a preceding backslash, everything else is
unchanged. -/
def escCharSpec (ch : Char) : List Char :=
  if ch = '\\' ∨ ch = '/' ∨ ch = '&' then ['\\', ch] else [ch]

/-- Length of the common prefix of two component lists. -/
def commonLen : List String → List String → Nat
  | a :: as, b :: bs => if a = b then commonLen as bs + 1 else 0
  | _, _ => 0

/-- `os.path.relpath(target, start)` on absolute component lists: climb out
of the part of `start` beyond the common prefix, then descend into the rest
of `target`. -/
def relPathComponents (target s : List String) : List String :=
  List.replicate (s.length - commonLen target s) (("..")) ++ target.drop (commonLen target s)

/-- String form of `os.path.relpath`, which renders an empty relative path
as a dot. -/
def relPathStr (target s : List String) : String :=
  if relPathComponents target s = [] then (".") else String.intercalate ("/") (relPathComponents target s)

/-- The prefix string computed by `M3uConvertFile.convert`:
`os.path.relpath(LOCAL_ROOT, playlist_dir) + '/'`. -/
def m3uPref (LOCAL_ROOT parentDir : PathC) : String :=
  relPathStr LOCAL_ROOT parentDir ++ "/"

/-- Embeds the effect of `M3uConvertFile.convert` on one playlist line: sed
applies `s/^/{escaped prefix}/g` (inserting the replacement text denoted by
the escaped prefix at the start of the line) and then `s/\.flac/\.ogg/g`
(global replacement of the literal `.flac` by the text denoted by `\.ogg`). -/
def m3uConvertLine (LOCAL_ROOT parentDir : PathC) (line : List Char) : List Char :=
  replaceAll (".flac").toList (sedReplText ("\\.ogg").toList)
    (sedReplText (escapeSedRepl (m3uPref LOCAL_ROOT parentDir).toList) ++ line)

/-- The configuration used by the concrete examples of the spec. -/
def cfg0 : Config := { LOCAL_ROOT := ["home", "u", "Music"], REMOTE_ROOT := ["mnt", "sdcard", "Music"] }

/-- A one-artist local listing used by concrete instances. -/
def tree7 : FSTree :=
  FSTree.dirF ("Artist") (FSTree.fileF ("track.flac") FSTree.nilF) FSTree.nilF

/-- The filter set admitting the one track of `tree7`. -/
def fset7 : List PathC := [["home", "u", "Music", "Artist", "track.flac"]]

/-- The scan output of `tree7`. -/
def units7 : List SyncUnit :=
  [SyncUnit.dirU ["home", "u", "Music"] ["mnt", "sdcard", "Music"],
    SyncUnit.dirU ["home", "u", "Music", "Artist"] ["mnt", "sdcard", "Music", "Artist"],
    SyncUnit.fileU FileKind.opusK ["home", "u", "Music", "Artist", "track.flac"]
      ["mnt", "sdcard", "Music", "Artist", "track.ogg"]]

/-- A local filesystem on which no path is a regular file. -/
def fsAllDirs : LocalFS := { isFile := fun _ => false, mtimeOf := fun _ => 5 }

/-- A local filesystem whose only regular file is the one track of the
two-unit collection used by the idempotence instance. -/
def fs8 : LocalFS :=
  { isFile := fun p => decide (p = ["home", "u", "Music", "a.mp3"]), mtimeOf := fun _ => 5 }

/-- A two-unit local collection: the root directory and one copied file. -/
def lc8 : List SyncUnit :=
  [SyncUnit.dirU ["home", "u", "Music"] ["mnt", "sdcard", "Music"],
    SyncUnit.fileU FileKind.copyK ["home", "u", "Music", "a.mp3"]
      ["mnt", "sdcard", "Music", "a.mp3"]]

/-- A remote state exactly covering `lc8`, every entry at least as new as its
local source. -/
def rem8 : List (PathC × ℚ) :=
  [(["mnt", "sdcard", "Music"], 3), (["mnt", "sdcard", "Music", "a.mp3"], 7)]

end MusicSync

namespace MusicSync

theorem hasPref_iff {α : Type} [DecidableEq α] :
    ∀ (a b : List α), hasPref a b = true ↔ ∃ r, b = a ++ r := by
  intro a
  induction a with
  | nil =>
    intro b
    simp [hasPref]
  | cons x xs ih =>
    intro b
    cases b with
    | nil =>
      simp [hasPref]
    | cons y ys =>
      by_cases hxy : x = y
      · subst hxy
        simp [hasPref, ih ys]
      · simp only [hasPref, if_neg hxy]
        constructor
        · intro h
          exact absurd h (by simp)
        · rintro ⟨r, hr⟩
          rw [List.cons_append] at hr
          injection hr with h1 h2
          exact absurd h1.symm hxy

theorem hasPref_append {α : Type} [DecidableEq α] (a r : List α) :
    hasPref a (a ++ r) = true :=
  (hasPref_iff a (a ++ r)).mpr ⟨r, rfl⟩

theorem hasPref_refl {α : Type} [DecidableEq α] (a : List α) : hasPref a a = true :=
  (hasPref_iff a a).mpr ⟨[], by simp⟩

theorem hasPref_length_le {α : Type} [DecidableEq α] {a b : List α}
    (h : hasPref a b = true) : a.length ≤ b.length := by
  obtain ⟨r, rfl⟩ := (hasPref_iff a b).mp h
  simp

theorem hasPref_trans {α : Type} [DecidableEq α] {a b c : List α}
    (h1 : hasPref a b = true) (h2 : hasPref b c = true) : hasPref a c = true := by
  obtain ⟨r1, rfl⟩ := (hasPref_iff a b).mp h1
  obtain ⟨r2, rfl⟩ := (hasPref_iff (a ++ r1) _).mp h2
  exact (hasPref_iff a _).mpr ⟨r1 ++ r2, by simp⟩

theorem hasPref_eq_of_length {α : Type} [DecidableEq α] {a b : List α}
    (h : hasPref a b = true) (hl : a.length = b.length) : a = b := by
  obtain ⟨r, rfl⟩ := (hasPref_iff a b).mp h
  have : r = [] := by
    rw [List.length_append] at hl
    exact List.eq_nil_of_length_eq_zero (by omega)
  simp [this]

theorem hasPref_weakenL {α : Type} [DecidableEq α] {a b c : List α}
    (h : hasPref (a ++ b) c = true) : hasPref a c = true := by
  obtain ⟨r, rfl⟩ := (hasPref_iff (a ++ b) c).mp h
  exact (hasPref_iff a _).mpr ⟨b ++ r, by simp⟩

theorem hasPref_same_of_length {α : Type} [DecidableEq α] {a b c : List α}
    (h1 : hasPref a c = true) (h2 : hasPref b c = true) (hl : a.length = b.length) :
    a = b := by
  obtain ⟨r1, hr1⟩ := (hasPref_iff a c).mp h1
  obtain ⟨r2, hr2⟩ := (hasPref_iff b c).mp h2
  exact (List.append_inj (hr1 ▸ hr2.symm) hl.symm).1.symm

theorem pathLeB_total : ∀ a b : PathC, pathLeB a b = true ∨ pathLeB b a = true := by
  intro a
  induction a with
  | nil =>
    intro b
    left
    simp [pathLeB]
  | cons x xs ih =>
    intro b
    cases b with
    | nil =>
      right
      simp [pathLeB]
    | cons y ys =>
      by_cases hxy : x = y
      · subst hxy
        simpa [pathLeB] using ih ys
      · rcases lt_or_gt_of_ne hxy with h | h
        · left
          simp [pathLeB, hxy, h]
        · right
          simp [pathLeB, Ne.symm hxy, h]

theorem pathLeB_trans :
    ∀ a b c : PathC, pathLeB a b = true → pathLeB b c = true → pathLeB a c = true := by
  intro a
  induction a with
  | nil =>
    intro b c _ _
    simp [pathLeB]
  | cons x xs ih =>
    intro b c h1 h2
    cases b with
    | nil =>
      simp [pathLeB] at h1
    | cons y ys =>
      cases c with
      | nil =>
        simp [pathLeB] at h2
      | cons z zs =>
        by_cases hxy : x = y
        · subst hxy
          by_cases hyz : x = z
          · subst hyz
            simp only [pathLeB, if_pos rfl] at h1 h2 ⊢
            exact ih ys zs h1 h2
          · simp only [pathLeB, if_pos rfl] at h1
            simpa [pathLeB, hyz] using h2
        · by_cases hyz : y = z
          · subst hyz
            simpa [pathLeB, hxy] using h1
          · have hx : x < y := by simpa [pathLeB, hxy] using h1
            have hy : y < z := by simpa [pathLeB, hyz] using h2
            have hxz : x < z := lt_trans hx hy
            simp [pathLeB, ne_of_lt hxz, hxz]

theorem pathLeB_of_pref :
    ∀ a b : PathC, hasPref a b = true → a ≠ b →
      pathLeB a b = true ∧ pathLeB b a = false := by
  intro a
  induction a with
  | nil =>
    intro b h hne
    cases b with
    | nil => exact absurd rfl hne
    | cons y ys => exact ⟨by simp [pathLeB], by simp [pathLeB]⟩
  | cons x xs ih =>
    intro b h hne
    cases b with
    | nil =>
      simp [hasPref] at h
    | cons y ys =>
      have hxy : x = y := by
        by_cases hxy : x = y
        · exact hxy
        · simp [hasPref, hxy] at h
      subst hxy
      have h' : hasPref xs ys = true := by simpa [hasPref] using h
      have hne' : xs ≠ ys := fun he => hne (by rw [he])
      obtain ⟨h1, h2⟩ := ih ys h' hne'
      exact ⟨by simpa [pathLeB] using h1, by simpa [pathLeB] using h2⟩

theorem mem_insertDesc (x : PathC) :
    ∀ (l : List PathC) (a : PathC), a ∈ insertDesc x l ↔ a = x ∨ a ∈ l := by
  intro l
  induction l with
  | nil =>
    intro a
    simp [insertDesc]
  | cons y ys ih =>
    intro a
    by_cases h : pathLeB y x = true
    · simp [insertDesc, h]
    · simp [insertDesc, h, ih a]
      tauto

theorem mem_sortDesc : ∀ (l : List PathC) (a : PathC), a ∈ sortDesc l ↔ a ∈ l := by
  intro l
  induction l with
  | nil =>
    intro a
    simp [sortDesc]
  | cons x xs ih =>
    intro a
    simp [sortDesc, mem_insertDesc, ih a]

theorem pairwise_insertDesc (x : PathC) :
    ∀ l : List PathC, List.Pairwise (fun a b => pathLeB b a = true) l →
      List.Pairwise (fun a b => pathLeB b a = true) (insertDesc x l) := by
  intro l
  induction l with
  | nil =>
    intro _
    simp [insertDesc]
  | cons y ys ih =>
    intro hp
    rcases List.pairwise_cons.mp hp with ⟨hy, hys⟩
    by_cases h : pathLeB y x = true
    · rw [insertDesc, if_pos h]
      refine List.pairwise_cons.mpr ⟨?_, hp⟩
      intro b hb
      rcases List.mem_cons.mp hb with rfl | hb
      · exact h
      · exact pathLeB_trans b y x (hy b hb) h
    · rw [insertDesc, if_neg h]
      refine List.pairwise_cons.mpr ⟨?_, ih hys⟩
      intro b hb
      rcases (mem_insertDesc x ys b).mp hb with hb | hb
      · subst hb
        rcases pathLeB_total y b with hyb | hby
        · exact absurd hyb h
        · exact hby
      · exact hy b hb

theorem pairwise_sortDesc :
    ∀ l : List PathC, List.Pairwise (fun a b => pathLeB b a = true) (sortDesc l) := by
  intro l
  induction l with
  | nil =>
    simp [sortDesc]
  | cons x xs ih =>
    exact pairwise_insertDesc x (sortDesc xs) ih

theorem mem_toDelete (keys localR : List PathC) (p : PathC) :
    p ∈ toDelete keys localR ↔ p ∈ keys ∧ ¬ p ∈ localR := by
  rw [toDelete, mem_sortDesc, List.mem_filter]
  simp

end MusicSync

namespace MusicSync

theorem replAux_single (a : Char) (rep : List Char) :
    ∀ s : List Char,
      replAux [a] rep 0 s = charMapConcat (fun ch => if ch = a then rep else [ch]) s := by
  intro s
  induction s with
  | nil => rfl
  | cons c rest ih =>
    by_cases h : a = c
    · subst h
      simp [replAux, hasPref, charMapConcat, ih]
    · simp [replAux, hasPref, h, Ne.symm h, charMapConcat, ih]

theorem replaceAll_single (a : Char) (rep : List Char) (s : List Char) :
    replaceAll [a] rep s = charMapConcat (fun ch => if ch = a then rep else [ch]) s :=
  replAux_single a rep s

theorem charMapConcat_append (f : Char → List Char) :
    ∀ x y : List Char, charMapConcat f (x ++ y) = charMapConcat f x ++ charMapConcat f y := by
  intro x y
  induction x with
  | nil => rfl
  | cons c rest ih => simp [charMapConcat, ih]

theorem charMapConcat_comp (f g : Char → List Char) :
    ∀ s : List Char,
      charMapConcat f (charMapConcat g s)
        = charMapConcat (fun ch => charMapConcat f (g ch)) s := by
  intro s
  induction s with
  | nil => rfl
  | cons c rest ih => simp [charMapConcat, charMapConcat_append, ih]

theorem charMapConcat_congr {f g : Char → List Char} (h : ∀ ch, f ch = g ch) :
    ∀ s : List Char, charMapConcat f s = charMapConcat g s := by
  intro s
  induction s with
  | nil => rfl
  | cons c rest ih => simp [charMapConcat, h c, ih]

theorem escapeSedRepl_eq (s : List Char) :
    escapeSedRepl s = charMapConcat escCharSpec s := by
  rw [escapeSedRepl, replaceAll_single, replaceAll_single, replaceAll_single,
    charMapConcat_comp, charMapConcat_comp]
  refine charMapConcat_congr ?_ s
  intro ch
  by_cases h1 : ch = '\\'
  · subst h1; decide
  · by_cases h2 : ch = '/'
    · subst h2; decide
    · by_cases h3 : ch = '&'
      · subst h3; decide
      · simp [charMapConcat, escCharSpec, h1, h2, h3]

theorem sedReplText_cons_plain (c : Char) (rest : List Char)
    (h1 : ¬ c = '\\') (h2 : ¬ c = '&') :
    sedReplText (c :: rest) = c :: sedReplText rest := by
  rw [sedReplText.eq_def]
  simp [h1, h2]

theorem sedReplText_escape (s : List Char) :
    sedReplText (escapeSedRepl s) = s := by
  rw [escapeSedRepl_eq]
  induction s with
  | nil => rfl
  | cons c rest ih =>
    by_cases h1 : c = '\\'
    · subst h1
      simpa [charMapConcat, escCharSpec, sedReplText] using ih
    · by_cases h2 : c = '/'
      · subst h2
        simpa [charMapConcat, escCharSpec, sedReplText] using ih
      · by_cases h3 : c = '&'
        · subst h3
          simpa [charMapConcat, escCharSpec, sedReplText] using ih
        · simpa [charMapConcat, escCharSpec, sedReplText_cons_plain, h1, h2, h3] using ih

theorem m3u_line_eq (LOCAL_ROOT parentDir : PathC) (line : List Char) :
    m3uConvertLine LOCAL_ROOT parentDir line
      = replaceAll (".flac").toList ((".ogg").toList)
          ((m3uPref LOCAL_ROOT parentDir).toList ++ line) := by
  have hogg : sedReplText (("\\.ogg").toList) = (".ogg").toList := by decide
  rw [m3uConvertLine, sedReplText_escape, hogg]

end MusicSync

namespace MusicSync

theorem dirBefore_of_file (u v : SyncUnit) (h : SyncUnit.isDirB v = false) :
    dirBefore u v := by
  intro p rp hv
  rw [hv] at h
  simp [SyncUnit.isDirB] at h

theorem pairwise_dirBefore_of_files (l : List SyncUnit)
    (h : ∀ v ∈ l, SyncUnit.isDirB v = false) : List.Pairwise dirBefore l := by
  induction l with
  | nil => exact List.Pairwise.nil
  | cons x xs ih =>
    refine List.pairwise_cons.mpr ⟨?_, ih fun v hv => h v (List.mem_cons_of_mem x hv)⟩
    intro v hv
    exact dirBefore_of_file x v (h v (List.mem_cons_of_mem x hv))

theorem classifyFile_spec (c : Config) (fset : List PathC) (d : PathC) (n : String)
    (main imgs : List SyncUnit) :
    (∃ u, classifyFile c fset d n main imgs = (u :: main, imgs)
        ∧ SyncUnit.localPath u = d ++ [n] ∧ SyncUnit.isDirB u = false)
    ∨ (∃ u, classifyFile c fset d n main imgs = (main, u :: imgs)
        ∧ SyncUnit.localPath u = d ++ [n] ∧ SyncUnit.isDirB u = false)
    ∨ classifyFile c fset d n main imgs = (main, imgs) := by
  by_cases h1 : suffixOfName n = ".m3u"
  · exact Or.inl ⟨SyncUnit.fileU FileKind.m3uK (d ++ [n]) (convertPathLocalToRemote c (d ++ [n])),
      by simp [classifyFile, h1], rfl, rfl⟩
  · by_cases h2 : (d ++ [n]) ∈ fset
    · by_cases h3 : suffixOfName n = ".flac"
      · exact Or.inl ⟨SyncUnit.fileU FileKind.opusK (d ++ [n])
          (withSuffix (convertPathLocalToRemote c (d ++ [n])) (".ogg")),
          by simp [classifyFile, h1, h2, h3], rfl, rfl⟩
      · exact Or.inl ⟨SyncUnit.fileU FileKind.copyK (d ++ [n])
          (convertPathLocalToRemote c (d ++ [n])),
          by simp [classifyFile, h1, h2, h3], rfl, rfl⟩
    · by_cases h4 : suffixOfName n ∈ imageSuffixes
      · exact Or.inr (Or.inl ⟨SyncUnit.fileU FileKind.copyK (d ++ [n])
          (convertPathLocalToRemote c (d ++ [n])),
          by simp [classifyFile, h1, h2, h4], rfl, rfl⟩)
      · exact Or.inr (Or.inr (by simp [classifyFile, h1, h2, h4]))

theorem wfForest_fileF {n : String} {r : FSTree} (h : wfForest (FSTree.fileF n r) = true) :
    (¬ n ∈ siblingNames r) ∧ wfForest r = true := by
  rw [wfForest, wfAux] at h
  simp only [siblingNames, Bool.and_eq_true, decide_eq_true_eq] at h
  obtain ⟨hnd, hax⟩ := h
  exact ⟨(List.nodup_cons.mp hnd).1, by simp [wfForest, (List.nodup_cons.mp hnd).2, hax]⟩

theorem wfForest_dirF {n : String} {ch r : FSTree}
    (h : wfForest (FSTree.dirF n ch r) = true) :
    (¬ n ∈ siblingNames r) ∧ wfForest ch = true ∧ wfForest r = true := by
  rw [wfForest, wfAux] at h
  simp only [siblingNames, Bool.and_eq_true, decide_eq_true_eq] at h
  obtain ⟨hnd, ⟨hndch, hch⟩, hr⟩ := h
  refine ⟨(List.nodup_cons.mp hnd).1, ?_, ?_⟩
  · simp [wfForest, hndch, hch]
  · simp [wfForest, (List.nodup_cons.mp hnd).2, hr]

theorem scanChildren_inv (c : Config) (fset : List PathC) :
    ∀ (t : FSTree) (d : PathC) (main imgs : List SyncUnit),
      wfForest t = true →
      scanChildren c fset d t = Except.ok (main, imgs) →
      ((∀ u, u ∈ main ++ imgs →
          ∃ n, n ∈ siblingNames t ∧ hasPref (d ++ [n]) (SyncUnit.localPath u) = true)
        ∧ List.Pairwise dirBefore main
        ∧ (∀ u, u ∈ imgs → SyncUnit.isDirB u = false)) := by
  intro t
  induction t with
  | nilF =>
    intro d main imgs _ h
    simp only [scanChildren] at h
    injection h with h
    injection h with h1 h2
    subst h1
    subst h2
    refine ⟨?_, List.Pairwise.nil, ?_⟩
    · intro u hu
      simp at hu
    · intro u hu
      simp at hu
  | fileF n r ih =>
    intro d main imgs hwf h
    simp only [scanChildren] at h
    cases hr : scanChildren c fset d r with
    | error e =>
      rw [hr] at h
      exact absurd h (by simp)
    | ok pr =>
      obtain ⟨mR, iR⟩ := pr
      rw [hr] at h
      injection h with h
      obtain ⟨hnr, hwfr⟩ := wfForest_fileF hwf
      obtain ⟨bp, pw, imf⟩ := ih d mR iR hwfr hr
      rcases classifyFile_spec c fset d n mR iR with
        ⟨u0, hcf, hlp, hfb⟩ | ⟨u0, hcf, hlp, hfb⟩ | hcf
      · rw [hcf] at h
        injection h with h1 h2
        subst h1
        subst h2
        refine ⟨?_, ?_, imf⟩
        · intro u hu
          rcases List.mem_append.mp hu with hu | hu
          · rcases List.mem_cons.mp hu with rfl | hu
            · exact ⟨n, by simp [siblingNames], by rw [hlp]; exact hasPref_refl _⟩
            · obtain ⟨m, hm, hp⟩ := bp u (List.mem_append.mpr (Or.inl hu))
              exact ⟨m, by simp [siblingNames, hm], hp⟩
          · obtain ⟨m, hm, hp⟩ := bp u (List.mem_append.mpr (Or.inr hu))
            exact ⟨m, by simp [siblingNames, hm], hp⟩
        · refine List.pairwise_cons.mpr ⟨?_, pw⟩
          intro v hv p rp hveq
          intro hco
          obtain ⟨hpu, hne⟩ := hco
          rw [hlp] at hpu hne
          obtain ⟨m, _, hpm⟩ := bp v (List.mem_append.mpr (Or.inl hv))
          rw [hveq] at hpm
          simp only [SyncUnit.localPath] at hpm
          have l1 : p.length ≤ d.length + 1 := by
            simpa using hasPref_length_le hpu
          have l2 : d.length + 1 ≤ p.length := by
            simpa using hasPref_length_le hpm
          exact hne (hasPref_eq_of_length hpu (by simp; omega))
      · rw [hcf] at h
        injection h with h1 h2
        subst h1
        subst h2
        refine ⟨?_, pw, ?_⟩
        · intro u hu
          rcases List.mem_append.mp hu with hu | hu
          · obtain ⟨m, hm, hp⟩ := bp u (List.mem_append.mpr (Or.inl hu))
            exact ⟨m, by simp [siblingNames, hm], hp⟩
          · rcases List.mem_cons.mp hu with rfl | hu
            · exact ⟨n, by simp [siblingNames], by rw [hlp]; exact hasPref_refl _⟩
            · obtain ⟨m, hm, hp⟩ := bp u (List.mem_append.mpr (Or.inr hu))
              exact ⟨m, by simp [siblingNames, hm], hp⟩
        · intro u hu
          rcases List.mem_cons.mp hu with rfl | hu
          · exact hfb
          · exact imf u hu
      · rw [hcf] at h
        injection h with h1 h2
        subst h1
        subst h2
        refine ⟨?_, pw, imf⟩
        intro u hu
        obtain ⟨m, hm, hp⟩ := bp u hu
        exact ⟨m, by simp [siblingNames, hm], hp⟩
  | dirF n ch r ihc ihr =>
    intro d main imgs hwf h
    simp only [scanChildren] at h
    obtain ⟨hnr, hwfch, hwfr⟩ := wfForest_dirF hwf
    by_cases hn : n = ".mediaartlocal"
    · rw [if_pos hn] at h
      obtain ⟨bp, pw, imf⟩ := ihr d main imgs hwfr h
      refine ⟨?_, pw, imf⟩
      intro u hu
      obtain ⟨m, hm, hp⟩ := bp u hu
      exact ⟨m, by simp [siblingNames, hm], hp⟩
    · rw [if_neg hn] at h
      cases hch : scanChildren c fset (d ++ [n]) ch with
      | error e =>
        rw [hch] at h
        exact absurd h (by simp)
      | ok prc =>
        obtain ⟨mc, ic⟩ := prc
        rw [hch] at h
        cases hr : scanChildren c fset d r with
        | error e =>
          rw [hr] at h
          exact absurd h (by simp)
        | ok prr =>
          obtain ⟨mR, iR⟩ := prr
          rw [hr] at h
          injection h with h
          injection h with h1 h2
          subst h2
          obtain ⟨bpC, pwC, imfC⟩ := ihc (d ++ [n]) mc ic hwfch hch
          obtain ⟨bpR, pwR, imfR⟩ := ihr d mR iR hwfr hr
          by_cases hmc : mc = []
          · rw [if_pos hmc, List.nil_append] at h1
            subst h1
            refine ⟨?_, pwR, imfR⟩
            intro u hu
            obtain ⟨m, hm, hp⟩ := bpR u hu
            exact ⟨m, by simp [siblingNames, hm], hp⟩
          · rw [if_neg hmc] at h1
            have headDB : ∀ v, v ∈ mc ++ ic →
                dirBefore (SyncUnit.dirU (d ++ [n]) (convertPathLocalToRemote c (d ++ [n]))) v := by
              intro v hv p rp hveq
              intro hco
              obtain ⟨hpu, hne⟩ := hco
              simp only [SyncUnit.localPath] at hpu hne
              obtain ⟨m, _, hpm⟩ := bpC v hv
              rw [hveq] at hpm
              simp only [SyncUnit.localPath] at hpm
              have l1 : p.length ≤ d.length + 1 := by
                simpa using hasPref_length_le hpu
              have l2 : d.length + 1 + 1 ≤ p.length := by
                simpa using hasPref_length_le hpm
              omega
            have crossR : ∀ a, hasPref (d ++ [n]) (SyncUnit.localPath a) = true →
                ∀ b, b ∈ mR → dirBefore a b := by
              intro a hpa b hb p rp hbeq
              intro hco
              obtain ⟨hpu, hne⟩ := hco
              obtain ⟨m, hmR, hpm⟩ := bpR b (List.mem_append.mpr (Or.inl hb))
              rw [hbeq] at hpm
              simp only [SyncUnit.localPath] at hpm
              have htr : hasPref (d ++ [m]) (SyncUnit.localPath a) = true :=
                hasPref_trans hpm hpu
              have heq : d ++ [m] = d ++ [n] :=
                hasPref_same_of_length htr hpa (by simp)
              have hmn : m = n := by
                have h3 := (List.append_inj heq rfl).2
                simpa using h3
              exact hnr (hmn ▸ hmR)
            subst h1
            refine ⟨?_, ?_, imfR⟩
            · intro u hu
              rcases List.mem_cons.mp (by simpa only [List.cons_append] using hu) with rfl | hu2
              · refine ⟨n, by simp [siblingNames], ?_⟩
                simp only [SyncUnit.localPath]
                exact hasPref_refl _
              · rcases List.mem_append.mp hu2 with hu3 | hu3
                · rcases List.mem_append.mp hu3 with hu4 | hu4
                  · obtain ⟨m, _, hp⟩ := bpC u hu4
                    exact ⟨n, by simp [siblingNames], hasPref_weakenL hp⟩
                  · obtain ⟨m, hm, hp⟩ := bpR u (List.mem_append.mpr (Or.inl hu4))
                    exact ⟨m, by simp [siblingNames, hm], hp⟩
                · obtain ⟨m, hm, hp⟩ := bpR u (List.mem_append.mpr (Or.inr hu3))
                  exact ⟨m, by simp [siblingNames, hm], hp⟩
            · refine List.pairwise_cons.mpr ⟨?_, ?_⟩
              · intro v hv
                rcases List.mem_append.mp hv with hv | hv
                · exact headDB v hv
                · refine crossR _ ?_ v hv
                  simp only [SyncUnit.localPath]
                  exact hasPref_refl _
              · show List.Pairwise dirBefore ((mc ++ ic) ++ mR)
                rw [List.pairwise_append]
                refine ⟨?_, pwR, ?_⟩
                · rw [List.pairwise_append]
                  exact ⟨pwC, pairwise_dirBefore_of_files ic imfC,
                    fun a _ b hb => dirBefore_of_file a b (imfC b hb)⟩
                · intro a ha b hb
                  refine crossR a ?_ b hb
                  rcases List.mem_append.mp ha with ha | ha
                  · obtain ⟨m, _, hp⟩ := bpC a (List.mem_append.mpr (Or.inl ha))
                    exact hasPref_weakenL hp
                  · obtain ⟨m, _, hp⟩ := bpC a (List.mem_append.mpr (Or.inr ha))
                    exact hasPref_weakenL hp
  | otherF n r ih =>
    intro d main imgs _ h
    simp only [scanChildren] at h
    exact absurd h (by simp)

end MusicSync

namespace MusicSync

theorem scanLocal_eq_ok (c : Config) (fset : List PathC) (d : PathC) (t : FSTree)
    (main imgs : List SyncUnit)
    (hsc : scanChildren c fset d t = Except.ok (main, imgs)) :
    scanLocal c fset d t =
      if main = [] then Except.ok []
      else Except.ok (SyncUnit.dirU d (convertPathLocalToRemote c d) :: main ++ imgs) := by
  rw [scanLocal, hsc]

theorem scanLocal_eq_err (c : Config) (fset : List PathC) (d : PathC) (t : FSTree)
    (e : String) (hsc : scanChildren c fset d t = Except.error e) :
    scanLocal c fset d t = Except.error e := by
  rw [scanLocal, hsc]

theorem scanLocal_units (c : Config) (fset : List PathC) (d : PathC) (t : FSTree)
    (units : List SyncUnit) (hwf : wfForest t = true)
    (h : scanLocal c fset d t = Except.ok units) :
    List.Pairwise dirBefore units
      ∧ ∀ u ∈ units, hasPref d (SyncUnit.localPath u) = true := by
  cases hsc : scanChildren c fset d t with
  | error e =>
    rw [scanLocal_eq_err c fset d t e hsc] at h
    exact absurd h (by simp)
  | ok pr =>
    obtain ⟨main, imgs⟩ := pr
    rw [scanLocal_eq_ok c fset d t main imgs hsc] at h
    obtain ⟨bp, pw, imf⟩ := scanChildren_inv c fset t d main imgs hwf hsc
    by_cases hm : main = []
    · rw [if_pos hm] at h
      injection h with h
      subst h
      exact ⟨List.Pairwise.nil, by intro u hu; simp at hu⟩
    · rw [if_neg hm] at h
      injection h with h
      subst h
      constructor
      · refine List.pairwise_cons.mpr ⟨?_, ?_⟩
        · intro v hv p rp hveq
          intro hco
          obtain ⟨hpu, hne⟩ := hco
          simp only [SyncUnit.localPath] at hpu hne
          obtain ⟨m, _, hpm⟩ := bp v hv
          rw [hveq] at hpm
          simp only [SyncUnit.localPath] at hpm
          have l1 : p.length ≤ d.length := hasPref_length_le hpu
          have l2 : d.length + 1 ≤ p.length := by
            simpa using hasPref_length_le hpm
          omega
        · show List.Pairwise dirBefore (main ++ imgs)
          rw [List.pairwise_append]
          exact ⟨pw, pairwise_dirBefore_of_files imgs imf,
            fun a _ b hb => dirBefore_of_file a b (imf b hb)⟩
      · intro u hu
        rcases List.mem_cons.mp hu with rfl | hu
        · simp only [SyncUnit.localPath]
          exact hasPref_refl d
        · obtain ⟨m, _, hp⟩ := bp u hu
          exact hasPref_weakenL hp

/-- C7: the scan output is in pre-order: a directory unit appears strictly
before every unit whose local path lies strictly below that directory, so
that in-order processing creates a parent directory before anything inside
it.  The hypothesis `wfForest` records that a real directory listing has
distinct sibling names at every level. -/
theorem claim_C7 (c : Config) (fset : List PathC) (d : PathC) (t : FSTree)
    (units : List SyncUnit) (hwf : wfForest t = true)
    (h : scanLocal c fset d t = Except.ok units)
    (i j : Nat) (hi : i < units.length) (hj : j < units.length)
    (p rp : PathC)
    (hdir : units.get ⟨i, hi⟩ = SyncUnit.dirU p rp)
    (hund : hasPref p (SyncUnit.localPath (units.get ⟨j, hj⟩)) = true)
    (hne : p ≠ SyncUnit.localPath (units.get ⟨j, hj⟩)) :
    i < j := by
  obtain ⟨pw, _⟩ := scanLocal_units c fset d t units hwf h
  by_contra hij
  rcases Nat.lt_or_ge j i with hji | hji
  · have hdb := List.pairwise_iff_get.mp pw ⟨j, hj⟩ ⟨i, hi⟩ (Fin.mk_lt_mk.mpr hji)
    exact hdb p rp hdir ⟨hund, hne⟩
  · have hije : i = j := by omega
    subst hije
    rw [hdir] at hund hne
    simp only [SyncUnit.localPath] at hund hne
    exact hne rfl

/-- Witness for C7 at a concrete listing: the directory unit of `Artist`
(index 1) precedes the file unit inside it (index 2). -/
theorem claim_C7_witness : (1 : Nat) < 2 :=
  claim_C7 cfg0 fset7 ["home", "u", "Music"] tree7 units7 (by decide) rfl
    1 2 (by decide) (by decide)
    ["home", "u", "Music", "Artist"] ["mnt", "sdcard", "Music", "Artist"]
    (by decide) (by decide) (by decide)

end MusicSync

namespace MusicSync

theorem scanChildren_imgs (c : Config) (fset : List PathC) (d : PathC) :
    ∀ (t : FSTree) (main imgs : List SyncUnit),
      scanChildren c fset d t = Except.ok (main, imgs) →
      imgs = deferredImages c fset d t := by
  intro t
  induction t with
  | nilF =>
    intro main imgs h
    simp only [scanChildren] at h
    injection h with h
    injection h with h1 h2
    subst h2
    simp [deferredImages]
  | fileF n r ih =>
    intro main imgs h
    simp only [scanChildren] at h
    cases hr : scanChildren c fset d r with
    | error e =>
      rw [hr] at h
      exact absurd h (by simp)
    | ok pr =>
      obtain ⟨mR, iR⟩ := pr
      rw [hr] at h
      injection h with h
      have hiR := ih mR iR hr
      by_cases h1 : suffixOfName n = ".m3u"
      · have hcf : classifyFile c fset d n mR iR
            = (SyncUnit.fileU FileKind.m3uK (d ++ [n])
                (convertPathLocalToRemote c (d ++ [n])) :: mR, iR) := by
          simp [classifyFile, h1]
        rw [hcf] at h
        injection h with hm hIm
        subst hIm
        simp [deferredImages, h1]
        exact hiR
      · by_cases h2 : (d ++ [n]) ∈ fset
        · by_cases h3 : suffixOfName n = ".flac"
          · have hcf : classifyFile c fset d n mR iR
                = (SyncUnit.fileU FileKind.opusK (d ++ [n])
                    (withSuffix (convertPathLocalToRemote c (d ++ [n])) (".ogg")) :: mR, iR) := by
              simp [classifyFile, h1, h2, h3]
            rw [hcf] at h
            injection h with hm hIm
            subst hIm
            simp [deferredImages, h2]
            exact hiR
          · have hcf : classifyFile c fset d n mR iR
                = (SyncUnit.fileU FileKind.copyK (d ++ [n])
                    (convertPathLocalToRemote c (d ++ [n])) :: mR, iR) := by
              simp [classifyFile, h1, h2, h3]
            rw [hcf] at h
            injection h with hm hIm
            subst hIm
            simp [deferredImages, h2]
            exact hiR
        · by_cases h4 : suffixOfName n ∈ imageSuffixes
          · have hcf : classifyFile c fset d n mR iR
                = (mR, SyncUnit.fileU FileKind.copyK (d ++ [n])
                    (convertPathLocalToRemote c (d ++ [n])) :: iR) := by
              simp [classifyFile, h1, h2, h4]
            rw [hcf] at h
            injection h with hm hIm
            subst hIm
            simp [deferredImages, h1, h2, h4]
            exact hiR
          · have hcf : classifyFile c fset d n mR iR = (mR, iR) := by
              simp [classifyFile, h1, h2, h4]
            rw [hcf] at h
            injection h with hm hIm
            subst hIm
            simp [deferredImages, h1, h2, h4]
            exact hiR
  | dirF n ch r ihc ihr =>
    intro main imgs h
    simp only [scanChildren] at h
    by_cases hn : n = ".mediaartlocal"
    · rw [if_pos hn] at h
      simp only [deferredImages]
      exact ihr main imgs h
    · rw [if_neg hn] at h
      cases hch : scanChildren c fset (d ++ [n]) ch with
      | error e =>
        rw [hch] at h
        exact absurd h (by simp)
      | ok prc =>
        obtain ⟨mc, ic⟩ := prc
        rw [hch] at h
        cases hr : scanChildren c fset d r with
        | error e =>
          rw [hr] at h
          exact absurd h (by simp)
        | ok prr =>
          obtain ⟨mR, iR⟩ := prr
          rw [hr] at h
          injection h with h
          injection h with h1 h2
          subst h2
          simp only [deferredImages]
          exact ihr mR iR hr
  | otherF n r ih =>
    intro main imgs h
    simp only [scanChildren] at h
    exact absurd h (by simp)

/-- C4 (corrected): the emptiness test of `Sync.scan_local` counts only the
units its generator yields, not the deferred images; the directory unit and
the deferred images are emitted only when that generator produced at least
one unit, and the deferred images are exactly the direct child files that
are not playlists, fail the filter set and carry one of the six image
suffixes, in encounter order. -/
theorem claim_C4 (c : Config) (fset : List PathC) (d : PathC) (t : FSTree)
    (main imgs : List SyncUnit)
    (h : scanChildren c fset d t = Except.ok (main, imgs)) :
    (main = [] → scanLocal c fset d t = Except.ok [])
    ∧ (main ≠ [] → scanLocal c fset d t
        = Except.ok (SyncUnit.dirU d (convertPathLocalToRemote c d) :: main ++ imgs))
    ∧ imgs = deferredImages c fset d t := by
  refine ⟨?_, ?_, scanChildren_imgs c fset d t main imgs h⟩
  · intro hm
    rw [scanLocal_eq_ok c fset d t main imgs h, if_pos hm]
  · intro hm
    rw [scanLocal_eq_ok c fset d t main imgs h, if_neg hm]

/-- Counterexample to C4 as stated: a directory whose only qualifying
content is a deferred image file yields nothing at all — the deferred image
is collected but then dropped with no directory unit, instead of the claimed
directory unit followed by the image unit. -/
theorem claim_C4_counterexample :
    scanChildren cfg0 [] ["home", "u", "Music"] (FSTree.fileF ("cover.jpg") FSTree.nilF)
      = Except.ok ([], [SyncUnit.fileU FileKind.copyK ["home", "u", "Music", "cover.jpg"]
          ["mnt", "sdcard", "Music", "cover.jpg"]])
    ∧ scanLocal cfg0 [] ["home", "u", "Music"] (FSTree.fileF ("cover.jpg") FSTree.nilF)
      = Except.ok [] :=
  ⟨rfl, rfl⟩

/-- Witness for the corrected C4: a directory with one filtered-in file
yields its directory unit first. -/
theorem claim_C4_witness :
    scanLocal cfg0 [["home", "u", "Music", "a.mp3"]] ["home", "u", "Music"]
        (FSTree.fileF ("a.mp3") FSTree.nilF)
      = Except.ok [SyncUnit.dirU ["home", "u", "Music"] ["mnt", "sdcard", "Music"],
          SyncUnit.fileU FileKind.copyK ["home", "u", "Music", "a.mp3"]
            ["mnt", "sdcard", "Music", "a.mp3"]] :=
  (claim_C4 cfg0 [["home", "u", "Music", "a.mp3"]] ["home", "u", "Music"]
      (FSTree.fileF ("a.mp3") FSTree.nilF)
      [SyncUnit.fileU FileKind.copyK ["home", "u", "Music", "a.mp3"]
        ["mnt", "sdcard", "Music", "a.mp3"]] [] rfl).2.1 (by simp)

theorem scanChildren_ok_of_clean (c : Config) (fset : List PathC) :
    ∀ (t : FSTree) (d : PathC), reachesOther t = false →
      ∃ pr, scanChildren c fset d t = Except.ok pr := by
  intro t
  induction t with
  | nilF =>
    intro d _
    exact ⟨([], []), rfl⟩
  | fileF n r ih =>
    intro d hro
    simp only [reachesOther] at hro
    obtain ⟨⟨mR, iR⟩, hpr⟩ := ih d hro
    refine ⟨classifyFile c fset d n mR iR, ?_⟩
    simp only [scanChildren]
    rw [hpr]
  | dirF n ch r ihc ihr =>
    intro d hro
    by_cases hn : n = ".mediaartlocal"
    · simp only [reachesOther, if_pos hn, Bool.false_or] at hro
      obtain ⟨pr, hpr⟩ := ihr d hro
      refine ⟨pr, ?_⟩
      simp only [scanChildren]
      rw [if_pos hn]
      exact hpr
    · simp only [reachesOther, if_neg hn, Bool.or_eq_false_iff] at hro
      obtain ⟨hch, hr⟩ := hro
      obtain ⟨⟨mc, ic⟩, hc⟩ := ihc (d ++ [n]) hch
      obtain ⟨⟨mR, iR⟩, hR⟩ := ihr d hr
      refine ⟨((if mc = [] then []
        else SyncUnit.dirU (d ++ [n]) (convertPathLocalToRemote c (d ++ [n])) :: mc ++ ic)
        ++ mR, iR), ?_⟩
      simp only [scanChildren]
      rw [if_neg hn, hc, hR]
  | otherF n r ih =>
    intro d hro
    simp [reachesOther] at hro

theorem scanChildren_error_of_other (c : Config) (fset : List PathC) :
    ∀ (t : FSTree) (d : PathC), reachesOther t = true →
      scanChildren c fset d t = Except.error assertionMsg := by
  intro t
  induction t with
  | nilF =>
    intro d h
    simp [reachesOther] at h
  | fileF n r ih =>
    intro d h
    simp only [reachesOther] at h
    simp only [scanChildren]
    rw [ih d h]
  | dirF n ch r ihc ihr =>
    intro d h
    simp only [scanChildren]
    by_cases hn : n = ".mediaartlocal"
    · rw [if_pos hn]
      simp only [reachesOther, if_pos hn, Bool.false_or] at h
      exact ihr d h
    · rw [if_neg hn]
      simp only [reachesOther, if_neg hn, Bool.or_eq_true] at h
      cases hcho : reachesOther ch with
      | true =>
        rw [ihc (d ++ [n]) hcho]
      | false =>
        have hr2 : reachesOther r = true := by
          rcases h with hch | hr2
          · rw [hcho] at hch
            exact absurd hch (by simp)
          · exact hr2
        obtain ⟨⟨mc, ic⟩, hc⟩ := scanChildren_ok_of_clean c fset ch (d ++ [n]) hcho
        rw [hc, ihr d hr2]
  | otherF n r ih =>
    intro d h
    simp only [scanChildren]

/-- C9: when the scan reaches a directory entry that is neither a regular
file nor a directory, the whole scan fails with the `AssertionError` text;
nothing catches it, so no unit list is produced and the run terminates
instead of skipping the entry. -/
theorem claim_C9 (c : Config) (fset : List PathC) (d : PathC) (t : FSTree)
    (h : reachesOther t = true) :
    scanLocal c fset d t = Except.error assertionMsg :=
  scanLocal_eq_err c fset d t assertionMsg (scanChildren_error_of_other c fset t d h)

/-- Witness for C9: a listing that also holds a perfectly valid playlist
file still makes the whole scan fail on the odd entry. -/
theorem claim_C9_witness :
    scanLocal cfg0 [] ["home", "u", "Music"]
        (FSTree.fileF ("song.m3u") (FSTree.otherF ("weird") FSTree.nilF))
      = Except.error assertionMsg :=
  claim_C9 cfg0 [] ["home", "u", "Music"]
    (FSTree.fileF ("song.m3u") (FSTree.otherF ("weird") FSTree.nilF)) (by decide)

end MusicSync

namespace MusicSync

theorem flatten_eq_nil {α : Type} :
    ∀ l : List (List α), (∀ x ∈ l, x = ([] : List α)) → l.flatten = [] := by
  intro l
  induction l with
  | nil => intro _; rfl
  | cons x xs ih =>
    intro h
    have hx := h x (List.mem_cons_self x xs)
    simp [hx, ih fun y hy => h y (List.mem_cons_of_mem x hy)]

theorem updateNeeded_none (fs : LocalFS) (remote : List (PathC × ℚ)) (u : SyncUnit)
    (h : dictGet remote (SyncUnit.remotePath u) = none) :
    updateNeeded fs remote u = true := by
  rw [updateNeeded, h]

theorem updateNeeded_some (fs : LocalFS) (remote : List (PathC × ℚ)) (u : SyncUnit) (rm : ℚ)
    (h : dictGet remote (SyncUnit.remotePath u) = some rm) :
    updateNeeded fs remote u
      = (fs.isFile (SyncUnit.localPath u)
          && decide (rm < fs.mtimeOf (SyncUnit.localPath u))) := by
  rw [updateNeeded, h]

theorem unitStep_fst (dry1 dry2 : Bool) (fs : LocalFS) (rExists : PathC → Bool)
    (remote : List (PathC × ℚ)) (u : SyncUnit) :
    (unitStep dry1 fs rExists remote u).fst = (unitStep dry2 fs rExists remote u).fst := by
  rw [unitStep.eq_def, unitStep.eq_def]
  by_cases h : updateNeeded fs remote u = true
  · rw [if_pos h, if_pos h]
    cases u with
    | dirU lp rp => rfl
    | fileU k lp rp => rfl
  · rw [if_neg h, if_neg h]

theorem unitStep_snd_dry (fs : LocalFS) (rExists : PathC → Bool)
    (remote : List (PathC × ℚ)) (u : SyncUnit) :
    (unitStep true fs rExists remote u).snd = [] := by
  rw [unitStep.eq_def]
  by_cases h : updateNeeded fs remote u = true
  · rw [if_pos h]
    cases u with
    | dirU lp rp => rfl
    | fileU k lp rp => rfl
  · rw [if_neg h]

/-- C6: dry-run purity as a two-run equality.  The report printed by
`Sync.sync` is the same whether or not the dry-run flag is set, and with the
flag set the list of mutating actions (deletes, mkdirs, pre-delete unlinks
and transform invocations) is empty. -/
theorem claim_C6 (fs : LocalFS) (rIsDir rExists : PathC → Bool)
    (lc : List SyncUnit) (remote : List (PathC × ℚ)) :
    (syncRun true fs rIsDir rExists lc remote).fst
        = (syncRun false fs rIsDir rExists lc remote).fst
    ∧ (syncRun true fs rIsDir rExists lc remote).snd = [] := by
  constructor
  · simp only [syncRun]
    congr 1
    rw [List.map_append, List.map_append, List.map_map, List.map_map,
      List.map_map, List.map_map]
    have hdel : (Prod.fst ∘ deleteStepRun true rIsDir)
        = (Prod.fst ∘ deleteStepRun false rIsDir) := by
      funext p
      rfl
    have hup : (Prod.fst ∘ unitStep true fs rExists remote)
        = (Prod.fst ∘ unitStep false fs rExists remote) := by
      funext u
      exact unitStep_fst true false fs rExists remote u
    rw [hdel, hup]
  · simp only [syncRun]
    rw [List.map_append, List.map_map, List.map_map]
    apply flatten_eq_nil
    intro x hx
    rcases List.mem_append.mp hx with hx | hx
    · obtain ⟨p, _, rfl⟩ := List.mem_map.mp hx
      rfl
    · obtain ⟨u, _, rfl⟩ := List.mem_map.mp hx
      exact unitStep_snd_dry fs rExists remote u

/-- C1: the per-unit decision of `Sync.sync`.  A report line (and hence an
action) is produced for a unit exactly when its remote path is absent from
the remote mtime map, or the unit is a regular file whose local mtime is
strictly greater than the recorded remote mtime; a present remote entry at
least as new as the local file is skipped, and a directory unit whose remote
path is present is always skipped.  The hypothesis ties the live
`is_file` check of the python code to the unit's shape. -/
theorem claim_C1 (dry : Bool) (fs : LocalFS) (rExists : PathC → Bool)
    (remote : List (PathC × ℚ)) (u : SyncUnit)
    (hcons : fs.isFile (SyncUnit.localPath u) = !(SyncUnit.isDirB u)) :
    ((unitStep dry fs rExists remote u).fst ≠ []
        ↔ (dictGet remote (SyncUnit.remotePath u) = none
            ∨ (SyncUnit.isDirB u = false
                ∧ ∃ rm, dictGet remote (SyncUnit.remotePath u) = some rm
                    ∧ rm < fs.mtimeOf (SyncUnit.localPath u))))
    ∧ (∀ rm, dictGet remote (SyncUnit.remotePath u) = some rm →
        fs.mtimeOf (SyncUnit.localPath u) ≤ rm →
        (unitStep dry fs rExists remote u).fst = [])
    ∧ (∀ lp rp rm, u = SyncUnit.dirU lp rp → dictGet remote rp = some rm →
        (unitStep dry fs rExists remote u).fst = []) := by
  have hfst : (unitStep dry fs rExists remote u).fst ≠ []
      ↔ updateNeeded fs remote u = true := by
    by_cases h : updateNeeded fs remote u = true
    · rw [unitStep.eq_def, if_pos h]
      cases u with
      | dirU lp rp => simp [h]
      | fileU k lp rp => simp [h]
    · rw [unitStep.eq_def, if_neg h]
      simp [h]
  have key : updateNeeded fs remote u = true
      ↔ (dictGet remote (SyncUnit.remotePath u) = none
          ∨ (SyncUnit.isDirB u = false
              ∧ ∃ rm, dictGet remote (SyncUnit.remotePath u) = some rm
                  ∧ rm < fs.mtimeOf (SyncUnit.localPath u))) := by
    cases hd : dictGet remote (SyncUnit.remotePath u) with
    | none =>
      rw [updateNeeded_none fs remote u hd]
      simp [hd]
    | some rm =>
      rw [updateNeeded_some fs remote u rm hd]
      cases u with
      | dirU lp rp =>
        have hff : fs.isFile lp = false := by
          simpa [SyncUnit.localPath, SyncUnit.isDirB] using hcons
        simp only [SyncUnit.remotePath] at hd
        simp [SyncUnit.localPath, SyncUnit.remotePath, SyncUnit.isDirB, hff, hd]
      | fileU k lp rp =>
        have hft : fs.isFile lp = true := by
          simpa [SyncUnit.localPath, SyncUnit.isDirB] using hcons
        simp only [SyncUnit.remotePath] at hd
        simp [SyncUnit.localPath, SyncUnit.remotePath, SyncUnit.isDirB, hft, hd]
  refine ⟨hfst.trans key, ?_, ?_⟩
  · intro rm hdg hle
    by_contra hne
    rcases (hfst.trans key).mp hne with hnone | ⟨_, rm2, hdg2, hlt⟩
    · rw [hdg] at hnone
      exact absurd hnone (by simp)
    · rw [hdg] at hdg2
      injection hdg2 with h2
      subst h2
      exact absurd hlt (not_lt.mpr hle)
  · intro lp rp rm hu hdg
    by_contra hne
    rcases (hfst.trans key).mp hne with hnone | ⟨hf, _⟩
    · rw [hu] at hnone
      simp only [SyncUnit.remotePath] at hnone
      rw [hdg] at hnone
      exact absurd hnone (by simp)
    · rw [hu] at hf
      simp [SyncUnit.isDirB] at hf

/-- Witness for C1: a directory unit whose remote path is present is skipped
regardless of any modification time. -/
theorem claim_C1_witness :
    (unitStep false fsAllDirs (fun _ => false) [(["mnt", "sdcard", "Music"], (3 : ℚ))]
      (SyncUnit.dirU ["home", "u", "Music"] ["mnt", "sdcard", "Music"])).fst = [] :=
  (claim_C1 false fsAllDirs (fun _ => false) [(["mnt", "sdcard", "Music"], (3 : ℚ))]
      (SyncUnit.dirU ["home", "u", "Music"] ["mnt", "sdcard", "Music"]) (by decide)).2.2
    ["home", "u", "Music"] ["mnt", "sdcard", "Music"] 3 rfl (by decide)

/-- C8: idempotence.  Against a remote state that holds exactly the remote
paths of the local collection, where every file unit's remote entry is at
least as new as its local source and every directory unit's local path is
still a directory, a (live) run of `sync` deletes nothing, prints nothing
and schedules no action.  These hypotheses describe the remote tree a
completed run leaves behind when nothing changes locally afterwards. -/
theorem claim_C8 (fs : LocalFS) (rIsDir rExists : PathC → Bool)
    (lc : List SyncUnit) (remote : List (PathC × ℚ))
    (hkeys : ∀ p, p ∈ remoteKeys remote → p ∈ lc.map SyncUnit.remotePath)
    (hdir : ∀ lp rp, SyncUnit.dirU lp rp ∈ lc →
        (∃ m, dictGet remote rp = some m) ∧ fs.isFile lp = false)
    (hfile : ∀ k lp rp, SyncUnit.fileU k lp rp ∈ lc →
        ∃ m, dictGet remote rp = some m ∧ fs.mtimeOf lp ≤ m) :
    syncRun false fs rIsDir rExists lc remote = ([], []) := by
  have htd : toDelete (remoteKeys remote) (lc.map SyncUnit.remotePath) = [] := by
    rw [toDelete]
    have hf : (remoteKeys remote).filter
        (fun p => decide (¬ p ∈ lc.map SyncUnit.remotePath)) = [] := by
      rw [List.eq_nil_iff_forall_not_mem]
      intro p hp
      rw [List.mem_filter] at hp
      obtain ⟨hp1, hp2⟩ := hp
      simp only [decide_eq_true_eq] at hp2
      exact hp2 (hkeys p hp1)
    rw [hf]
    rfl
  have hstep : ∀ u ∈ lc, unitStep false fs rExists remote u = ([], []) := by
    intro u hu
    have hupd : updateNeeded fs remote u = false := by
      cases u with
      | dirU lp rp =>
        obtain ⟨⟨m, hm⟩, hff⟩ := hdir lp rp hu
        rw [updateNeeded_some fs remote (SyncUnit.dirU lp rp) m hm]
        simp [SyncUnit.localPath, hff]
      | fileU k lp rp =>
        obtain ⟨m, hm, hle⟩ := hfile k lp rp hu
        rw [updateNeeded_some fs remote (SyncUnit.fileU k lp rp) m hm]
        have hnlt : ¬ (m < fs.mtimeOf lp) := not_lt.mpr hle
        simp [SyncUnit.localPath, hnlt]
    rw [unitStep.eq_def, if_neg (by simp [hupd])]
  simp only [syncRun, htd, List.map_nil, List.nil_append, List.map_map]
  rw [Prod.mk.injEq]
  constructor
  · apply flatten_eq_nil
    intro x hx
    obtain ⟨u, hu, rfl⟩ := List.mem_map.mp hx
    show (unitStep false fs rExists remote u).fst = []
    rw [hstep u hu]
  · apply flatten_eq_nil
    intro x hx
    obtain ⟨u, hu, rfl⟩ := List.mem_map.mp hx
    show (unitStep false fs rExists remote u).snd = []
    rw [hstep u hu]

/-- Witness for C8 at a concrete post-run state: root directory plus one
file, both present remotely, the file newer remotely than locally. -/
theorem claim_C8_witness :
    syncRun false fs8 (fun _ => true) (fun _ => true) lc8 rem8 = ([], []) := by
  refine claim_C8 fs8 (fun _ => true) (fun _ => true) lc8 rem8 ?_ ?_ ?_
  · intro p hp
    have hk : remoteKeys rem8
        = [["mnt", "sdcard", "Music"], ["mnt", "sdcard", "Music", "a.mp3"]] := by decide
    rw [hk] at hp
    rcases List.mem_cons.mp hp with rfl | hp
    · decide
    · rcases List.mem_cons.mp hp with rfl | hp
      · decide
      · exact absurd hp (by simp)
  · intro lp rp h
    simp only [lc8, List.mem_cons, List.not_mem_nil, or_false] at h
    rcases h with h | h
    · injection h with h1 h2
      subst h1
      subst h2
      exact ⟨⟨3, by decide⟩, by decide⟩
    · exact SyncUnit.noConfusion h
  · intro k lp rp h
    simp only [lc8, List.mem_cons, List.not_mem_nil, or_false] at h
    rcases h with h | h
    · exact SyncUnit.noConfusion h
    · injection h with h1 h2 h3
      subst h2
      subst h3
      exact ⟨7, by decide, by decide⟩

end MusicSync

namespace MusicSync

theorem drop_append_self {α : Type} : ∀ a b : List α, (a ++ b).drop a.length = b := by
  intro a
  induction a with
  | nil => intro b; rfl
  | cons x xs ih => intro b; exact ih b

/-- C2: the path mapper.  A path in the playlists subtree goes to
`REMOTE_ROOT/Playlists/rel`; any other path under the local root goes to
`REMOTE_ROOT/rel`; the scan rewrites the remote extension to `.ogg` exactly
for the `.flac` files it classifies for transcoding, and keeps the remote
path produced by the mapper unchanged for every other unit kind; and the two
concrete mappings of the spec hold, including the end-to-end `.flac` to
`.ogg` example through the scan. -/
theorem claim_C2 :
    (∀ (c : Config) (rel : PathC),
        convertPathLocalToRemote c (c.LOCAL_PLAYLISTS_ROOT ++ rel)
          = c.REMOTE_ROOT ++ ["Playlists"] ++ rel)
    ∧ (∀ (c : Config) (rel : PathC),
        hasPref c.LOCAL_PLAYLISTS_ROOT (c.LOCAL_ROOT ++ rel) = false →
        convertPathLocalToRemote c (c.LOCAL_ROOT ++ rel) = c.REMOTE_ROOT ++ rel)
    ∧ (∀ (c : Config) (fset : List PathC) (d : PathC) (n : String) (u : SyncUnit),
        u ∈ (classifyFile c fset d n [] []).fst ++ (classifyFile c fset d n [] []).snd →
        SyncUnit.remotePath u
          = (if suffixOfName n = ".flac" ∧ (d ++ [n]) ∈ fset
              then withSuffix (convertPathLocalToRemote c (d ++ [n])) (".ogg")
              else convertPathLocalToRemote c (d ++ [n])))
    ∧ convertPathLocalToRemote cfg0 ["home", "u", "Music", ".playlists", "foo.m3u"]
        = ["mnt", "sdcard", "Music", "Playlists", "foo.m3u"]
    ∧ scanLocal cfg0 fset7 ["home", "u", "Music"] tree7 = Except.ok units7 := by
  refine ⟨?_, ?_, ?_, rfl, rfl⟩
  · intro c rel
    rw [convertPathLocalToRemote, if_pos (hasPref_append _ _), drop_append_self]
  · intro c rel h
    rw [convertPathLocalToRemote, if_neg (by simp [h]), drop_append_self]
  · intro c fset d n u hu
    by_cases h1 : suffixOfName n = ".m3u"
    · have hnf : ¬ (suffixOfName n = ".flac" ∧ (d ++ [n]) ∈ fset) := by
        intro hco
        rw [h1] at hco
        exact absurd hco.1 (by decide)
      rw [if_neg hnf]
      simp only [classifyFile, h1, if_pos rfl] at hu
      simp at hu
      simp [hu, SyncUnit.remotePath]
    · by_cases h2 : (d ++ [n]) ∈ fset
      · by_cases h3 : suffixOfName n = ".flac"
        · rw [if_pos ⟨h3, h2⟩]
          simp only [classifyFile, h1, h2, h3] at hu
          simp [h1, h2, h3] at hu
          simp [hu, SyncUnit.remotePath]
        · have hnf : ¬ (suffixOfName n = ".flac" ∧ (d ++ [n]) ∈ fset) := fun hco => h3 hco.1
          rw [if_neg hnf]
          simp [classifyFile, h1, h2, h3] at hu
          simp [hu, SyncUnit.remotePath]
      · have hnf : ¬ (suffixOfName n = ".flac" ∧ (d ++ [n]) ∈ fset) := fun hco => h2 hco.2
        rw [if_neg hnf]
        by_cases h4 : suffixOfName n ∈ imageSuffixes
        · simp [classifyFile, h1, h2, h4] at hu
          simp [hu, SyncUnit.remotePath]
        · simp [classifyFile, h1, h2, h4] at hu

/-- Witness for C2: a path outside the playlists subtree maps under the
plain remote root. -/
theorem claim_C2_witness :
    convertPathLocalToRemote cfg0 (["home", "u", "Music"] ++ ["Artist", "x.mp3"])
      = cfg0.REMOTE_ROOT ++ ["Artist", "x.mp3"] :=
  claim_C2.2.1 cfg0 ["Artist", "x.mp3"] (by decide)

/-- C3: the deletion set and its order.  A path is slated for deletion
exactly when it is a remote entry path and no local unit maps to it; the
sequence is descending in the lexicographic path order; consequently a
strict ancestor directory always comes after its descendants in the delete
sequence. -/
theorem claim_C3 (remote : List (PathC × ℚ)) (lc : List SyncUnit) :
    (∀ p, p ∈ toDelete (remoteKeys remote) (lc.map SyncUnit.remotePath)
        ↔ (p ∈ remote.map Prod.fst ∧ ¬ p ∈ lc.map SyncUnit.remotePath))
    ∧ List.Pairwise (fun a b => pathLeB b a = true)
        (toDelete (remoteKeys remote) (lc.map SyncUnit.remotePath))
    ∧ (∀ (i j : Nat)
        (hi : i < (toDelete (remoteKeys remote) (lc.map SyncUnit.remotePath)).length)
        (hj : j < (toDelete (remoteKeys remote) (lc.map SyncUnit.remotePath)).length),
        hasPref ((toDelete (remoteKeys remote) (lc.map SyncUnit.remotePath)).get ⟨i, hi⟩)
            ((toDelete (remoteKeys remote) (lc.map SyncUnit.remotePath)).get ⟨j, hj⟩) = true →
        (toDelete (remoteKeys remote) (lc.map SyncUnit.remotePath)).get ⟨i, hi⟩
            ≠ (toDelete (remoteKeys remote) (lc.map SyncUnit.remotePath)).get ⟨j, hj⟩ →
        j < i) := by
  have hpw : List.Pairwise (fun a b => pathLeB b a = true)
      (toDelete (remoteKeys remote) (lc.map SyncUnit.remotePath)) := by
    rw [toDelete]
    exact pairwise_sortDesc _
  refine ⟨?_, hpw, ?_⟩
  · intro p
    rw [mem_toDelete]
    simp [remoteKeys, List.mem_dedup]
  · intro i j hi hj hpref hne
    by_contra hji
    have hij : i ≤ j := by omega
    rcases Nat.lt_or_ge i j with hlt | hge
    · have hdesc := List.pairwise_iff_get.mp hpw ⟨i, hi⟩ ⟨j, hj⟩ (Fin.mk_lt_mk.mpr hlt)
      have := (pathLeB_of_pref _ _ hpref hne).2
      rw [this] at hdesc
      exact absurd hdesc (by simp)
    · have hije : i = j := by omega
      subst hije
      exact hne rfl

/-- Witness for C3: with remote entries `/a` and `/a/b` and no local units,
the descendant is deleted before its ancestor. -/
theorem claim_C3_witness : (0 : Nat) < 1 :=
  (claim_C3 [(["a"], (1 : ℚ)), (["a", "b"], (2 : ℚ))] []).2.2 1 0
    (by decide) (by decide) (by decide) (by decide)

/-- C5: the playlist rewrite.  The escaping loop puts a backslash in front
of every backslash, slash and ampersand of the computed prefix (and touches
nothing else); the effect of the two sed scripts on a line is to prepend the
relative path from the playlist's directory back to the music root followed
by a separator and globally rewrite `.flac` to `.ogg`; on the spec's example
the line `Artist/track.flac` becomes `../Artist/track.ogg`, the escaped
prefix being the four characters of `..\/`. -/
theorem claim_C5 :
    (∀ s : List Char, escapeSedRepl s = charMapConcat escCharSpec s)
    ∧ (∀ (LOCAL_ROOT parentDir : PathC) (line : List Char),
        m3uConvertLine LOCAL_ROOT parentDir line
          = replaceAll (".flac").toList ((".ogg").toList)
              ((m3uPref LOCAL_ROOT parentDir).toList ++ line))
    ∧ m3uConvertLine ["home", "u", "Music"] ["home", "u", "Music", ".playlists"]
        (("Artist/track.flac").toList) = ("../Artist/track.ogg").toList
    ∧ escapeSedRepl ((m3uPref ["home", "u", "Music"] ["home", "u", "Music", ".playlists"]).toList)
        = ("..\\/").toList :=
  ⟨escapeSedRepl_eq, m3u_line_eq, rfl, rfl⟩

/-- C10: the extension rewrite of the playlist transform is a global
substring substitution applied to the whole line, not an
extension-position rewrite: any occurrence of `.flac`, also inside a
directory component, is replaced by `.ogg`. -/
theorem claim_C10 :
    (∀ (LOCAL_ROOT parentDir : PathC) (line : List Char),
        m3uConvertLine LOCAL_ROOT parentDir line
          = replaceAll (".flac").toList ((".ogg").toList)
              ((m3uPref LOCAL_ROOT parentDir).toList ++ line))
    ∧ m3uConvertLine ["home", "u", "Music"] ["home", "u", "Music", ".playlists"]
        (("My.flac.albums/track.flac").toList) = ("../My.ogg.albums/track.ogg").toList :=
  ⟨m3u_line_eq, rfl⟩

end MusicSync
